import Mathlib

/-!
# Verification of the Hill cipher implementation modulo 97

A shallow embedding of `hill_cipher.h` (namespace `math_nerd::hill_cipher`):
the 97-symbol character table, the block cipher `encrypt`/`decrypt`, and the
key-inversion routine `inverse_of` (2×2 closed form plus general Gauss-Jordan
elimination with partial pivoting) over the field Z/97.

The scalar type `int_mod<97>` and the matrix type `matrix_t` come from
external headers that are not part of this repository; they are modelled from
the specification: `int_mod<97>` construction reduces into canonical range
`[0, 97)` and arithmetic is exact modular arithmetic (embedded as `ZMod 97`),
and `matrix_t` multiplication is the standard row-by-column product (embedded
as Mathlib's `Matrix`).
-/

namespace HillCipher

instance fact_97_prime : Fact (Nat.Prime 97) := ⟨by norm_num⟩

/-- The scalar field `z97 = int_mod::int_mod<97>`. -/
abbrev z97 : Type := ZMod 97

/-- A Hill-cipher key: `matrix_t<z97, size, size>`. -/
abbrev Mat (n : ℕ) : Type := Matrix (Fin n) (Fin n) z97

/-- The character table `impl_details::ch_table`, in the source's order. -/
def ch_table : List Char :=
  ['A','B','C','D','E','F','G','H','I','J','K','L','M',
   'N','O','P','Q','R','S','T','U','V','W','X','Y','Z',
   'a','b','c','d','e','f','g','h','i','j','k','l','m',
   'n','o','p','q','r','s','t','u','v','w','x','y','z',
   '0','1','2','3','4','5','6','7','8','9',' ','~','-','=','!','@','#','$',
   '%','^','&','*','(',')','_','+',
   '[',']',';','\'',',','.','/','{','}',':','"','<','>','?','`','\\','|',
   '\t','\n']

theorem ch_table_length : ch_table.length = 97 := by decide

/-- `impl_details::z97_to_char`: the character assigned to a field element. -/
def z97_to_char (num : z97) : Char :=
  ch_table.get ⟨num.val, by have := ZMod.val_lt num; simpa [ch_table_length] using this⟩

/-- `impl_details::char_to_z97`: `std::distance(begin, find(begin, end, c))`
converted to `int_mod<97>` (which reduces modulo 97, per the `int_mod` spec);
for a character not in the table the distance is 97, which reduces to 0. -/
def char_to_z97 (c : Char) : z97 :=
  ((ch_table.indexOf c : ℕ) : z97)

set_option maxRecDepth 4000 in
theorem char_roundtrip : ∀ x : z97, char_to_z97 (z97_to_char x) = x := by
  decide

set_option maxRecDepth 4000 in
theorem table_roundtrip : ∀ c ∈ ch_table, z97_to_char (char_to_z97 c) = c := by
  decide

/-! ### Row operations and the Gauss-Jordan state

`inverse_of` works on two matrices in lock step: `key`, a local copy of the
key being reduced, and `dec_key`, which starts as the identity and receives
the same row operations. -/

/-- Swap rows `r` and `s` of a matrix (the source's element-wise `tmp` swap). -/
def rowSwap {n : ℕ} (M : Mat n) (r s : Fin n) : Mat n :=
  Matrix.of fun i j => if i = r then M s j else if i = s then M r j else M i j

/-- Row operation `row k -= d * row i` (the source's inner `j` loop). -/
def addRowMul {n : ℕ} (M : Mat n) (k i : Fin n) (d : z97) : Mat n :=
  M.updateRow k (fun j => M k j - d * M i j)

/-- Row operation `row i /= p` (the source's `dec_key[i][j] /= key[i][i]`). -/
def scaleRowDiv {n : ℕ} (M : Mat n) (i : Fin n) (p : z97) : Mat n :=
  M.updateRow i (fun j => M i j / p)

/-- Overwrite the single entry `(i, j)` with `v`. -/
def setEntry {n : ℕ} (M : Mat n) (i j : Fin n) (v : z97) : Mat n :=
  Matrix.of fun r c => if r = i ∧ c = j then v else M r c

/-- The pair of matrices mutated by the Gauss-Jordan branch of `inverse_of`. -/
structure GJState (n : ℕ) where
  key : Mat n
  dec : Mat n

/-- The identity matrix as `inverse_of` builds it, entry by entry. -/
def idMat (n : ℕ) : Mat n :=
  Matrix.of fun i j => if j = i then 1 else 0

/-- The exception message thrown by `inverse_of`. -/
def notInvMsg : String := "The matrix is not invertible.\n"

/-! ### Loop combinators

`for (k = b; k < e; ++k)` loops are folds over `List.range' b (e - b)`;
`for (i = start; i >= 0; --i) { body; if (i == 0) break; }` loops with an
unsigned counter are the structural recursions `downFrom`/`downFromE`, which
execute the body at `start, start - 1, …, 0` and stop via the break. -/

/-- Left fold threading an `Except`: a loop whose body can throw. -/
def foldE {σ ε : Type} (f : σ → ℕ → Except ε σ) : σ → List ℕ → Except ε σ
  | s, [] => .ok s
  | s, i :: l =>
    match f s i with
    | .error e => .error e
    | .ok s' => foldE f s' l

/-- Descending loop `for (r = start; r >= 0; --r) { body; if (r == 0) break; }`. -/
def downFrom {σ : Type} (f : σ → ℕ → σ) : ℕ → σ → σ
  | 0, s => f s 0
  | r + 1, s => downFrom f r (f s (r + 1))

/-- Descending loop whose body can throw. -/
def downFromE {σ ε : Type} (f : σ → ℕ → Except ε σ) : ℕ → σ → Except ε σ
  | 0, s => f s 0
  | r + 1, s =>
    match f s (r + 1) with
    | .error e => .error e
    | .ok s' => downFromE f r s'

/-- Lift a body over `Fin n` to a body over `ℕ` (loop indices are machine
integers; every index reached by the loops is in range). -/
def natStep {n : ℕ} {σ : Type} (g : σ → Fin n → σ) : σ → ℕ → σ :=
  fun s i => if h : i < n then g s ⟨i, h⟩ else s

/-- `natStep` for a body that can throw. -/
def natStepE {n : ℕ} {σ ε : Type} (g : σ → Fin n → Except ε σ) :
    σ → ℕ → Except ε σ :=
  fun s i => if h : i < n then g s ⟨i, h⟩ else .ok s

/-! ### The Gauss-Jordan branch of `inverse_of` -/

/-- Partial-pivot search at pivot `i`: starting from
`(key[i][i].value(), i)`, scan `k = i+1, …, size-1` and record the largest
raw value and its first row. Returns `(max_element, max_row)`. -/
def pivotSearch {n : ℕ} (key : Mat n) (i : Fin n) : ℕ × ℕ :=
  (List.range' (i.val + 1) (n - (i.val + 1))).foldl
    (fun acc k =>
      if h : k < n then
        if (key ⟨k, h⟩ i).val > acc.1 then ((key ⟨k, h⟩ i).val, k) else acc
      else acc)
    ((key i i).val, i.val)

/-- One step of the forward-elimination `k` loop: check the pivot, then
`row k -= (key[k][i] / key[i][i]) * row i` on both matrices. -/
def elimStep {n : ℕ} (i : Fin n) (s : GJState n) (k : Fin n) :
    Except String (GJState n) :=
  if s.key i i = 0 then .error notInvMsg
  else
    let d := s.key k i / s.key i i
    .ok ⟨addRowMul s.key k i d, addRowMul s.dec k i d⟩

/-- The forward-elimination body for pivot `i`: pivot search, conditional row
swap of both matrices, then elimination of the rows below the pivot. -/
def forwardPivot {n : ℕ} (s : GJState n) (i : Fin n) :
    Except String (GJState n) :=
  let mr := (pivotSearch s.key i).2
  let s1 : GJState n :=
    if h : mr < n then
      if i.val < mr then ⟨rowSwap s.key i ⟨mr, h⟩, rowSwap s.dec i ⟨mr, h⟩⟩
      else s
    else s
  foldE (natStepE (elimStep i)) s1 (List.range' (i.val + 1) (n - (i.val + 1)))

/-- The whole forward-elimination phase: pivots `i = 0, …, size-1`. -/
def forward {n : ℕ} (s : GJState n) : Except String (GJState n) :=
  foldE (natStepE forwardPivot) s (List.range n)

/-- One step of the back-substitution `row` loop:
`dec_key[row][·] -= dec_key[i][·] * key[row][i]`, then `key[row][i] = 0`. -/
def backRowStep {n : ℕ} (i : Fin n) (s : GJState n) (row : Fin n) : GJState n :=
  let m := s.key row i
  ⟨setEntry s.key row i 0,
   s.dec.updateRow row (fun c => s.dec row c - s.dec i c * m)⟩

/-- The back-substitution body for pivot `i`: check the pivot, divide row `i`
of `dec_key` by it, set `key[i][i] = 1`, then (unless `i = 0`) run the
descending `row` loop over `i-1, …, 0`. -/
def backPivot {n : ℕ} (s : GJState n) (i : Fin n) :
    Except String (GJState n) :=
  if s.key i i = 0 then .error notInvMsg
  else
    let p := s.key i i
    let s1 : GJState n := ⟨setEntry s.key i i 1, scaleRowDiv s.dec i p⟩
    if i.val = 0 then .ok s1
    else .ok (downFrom (natStep (backRowStep i)) (i.val - 1) s1)

/-- The full Gauss-Jordan run: forward elimination from `⟨key, identity⟩`,
then the descending back-substitution loop `i = size-1, …, 0`. -/
def gaussRun {n : ℕ} (key : Mat n) : Except String (GJState n) :=
  match forward ⟨key, idMat n⟩ with
  | .error e => .error e
  | .ok s => downFromE (natStepE backPivot) (n - 1) s

/-- The Gauss-Jordan branch of `inverse_of`: the final `dec_key`. -/
def gaussInverse {n : ℕ} (key : Mat n) : Except String (Mat n) :=
  match gaussRun key with
  | .error e => .error e
  | .ok s => .ok s.dec

/-- `impl_details::inverse_of`: closed form for `size == 2`
(`if constexpr`), Gauss-Jordan elimination otherwise. -/
def inverse_of (n : ℕ) (key : Mat n) : Except String (Mat n) :=
  if h : n = 2 then
    let i0 : Fin n := ⟨0, by omega⟩
    let i1 : Fin n := ⟨1, by omega⟩
    if key i0 i0 * key i1 i1 = key i0 i1 * key i1 i0 then .error notInvMsg
    else
      let det := key i0 i0 * key i1 i1 - key i0 i1 * key i1 i0
      .ok (Matrix.of fun r c =>
        if r = i0 then
          (if c = i0 then key i1 i1 / det else -key i0 i1 / det)
        else
          (if c = i0 then -key i1 i0 / det else key i0 i0 / det))
  else gaussInverse key

/-! ### The cipher engine -/

/-- The padding `while` loop: append `' '` until the length is a multiple of
`sz`. Fuel `sz` suffices: at most `sz - 1` iterations are ever needed. -/
def padLoop (sz : ℕ) : ℕ → List Char → List Char
  | 0, pt => pt
  | fuel + 1, pt =>
    if pt.length % sz = 0 then pt else padLoop sz fuel (pt ++ [' '])

/-- Pad the plaintext to a multiple of the key size. -/
def padPT (sz : ℕ) (pt : List Char) : List Char := padLoop sz sz pt

/-- The message block with index `b` of a padded text, as a column vector:
entry `j` is `char_to_z97(pt[b*size + j])`. -/
def blockVec (n : ℕ) (p : List Char) (b : ℕ) : Fin n → z97 :=
  fun j => char_to_z97 (p.getD (b * n + j.val) 'A')

/-- `encrypt` applied to an already padded text: multiply each block by the
key and map the results back to characters, concatenating in block order. -/
def encryptPadded (n : ℕ) (key : Mat n) (p : List Char) : List Char :=
  ((List.range (p.length / n)).map
    (fun b => List.ofFn (fun j : Fin n => z97_to_char (key.mulVec (blockVec n p b) j)))).flatten

/-- `hill_cipher::encrypt`. -/
def encrypt (n : ℕ) (key : Mat n) (pt : List Char) : List Char :=
  encryptPadded n key (padPT n pt)

/-- `hill_cipher::decrypt`: `encrypt(inverse_of(key), ct)`, propagating the
`NotInvertible` exception. -/
def decrypt (n : ℕ) (key : Mat n) (ct : List Char) :
    Except String (List Char) :=
  match inverse_of n key with
  | .error e => .error e
  | .ok dk => .ok (encrypt n dk ct)

/-- The caller passes the key to `decrypt` by value; the pair records the
call's result together with the caller's key after the call. -/
def decryptCall (n : ℕ) (key : Mat n) (ct : List Char) :
    Except String (List Char) × Mat n :=
  (decrypt n key ct, key)

/-! ### Loop-shape lemmas: the descending loops visit exactly `start, …, 0` -/

theorem foldE_cons {σ ε : Type} (f : σ → ℕ → Except ε σ) (s : σ) (k : ℕ)
    (l : List ℕ) :
    foldE f s (k :: l) =
      match f s k with
      | .error e => .error e
      | .ok s' => foldE f s' l := rfl

theorem downFrom_eq_foldl {σ : Type} (f : σ → ℕ → σ) (r : ℕ) (s : σ) :
    downFrom f r s = ((List.range (r + 1)).reverse).foldl f s := by
  induction r generalizing s with
  | zero => rfl
  | succ r ih =>
    conv_rhs => rw [List.range_succ, List.reverse_append]
    simp only [List.reverse_cons, List.reverse_nil, List.nil_append,
      List.cons_append, List.foldl_cons]
    rw [downFrom, ih]

theorem downFromE_eq_foldE {σ ε : Type} (f : σ → ℕ → Except ε σ) (r : ℕ) (s : σ) :
    downFromE f r s = foldE f s ((List.range (r + 1)).reverse) := by
  induction r generalizing s with
  | zero =>
    show f s 0 = foldE f s [0]
    cases h : f s 0 <;> simp [foldE, h]
  | succ r ih =>
    conv_rhs => rw [List.range_succ, List.reverse_append]
    simp only [List.reverse_cons, List.reverse_nil, List.nil_append,
      List.cons_append]
    rw [downFromE, foldE]
    cases f s (r + 1) with
    | error e => rfl
    | ok s' => exact ih s'

/-! ### Row operations versus matrix multiplication and determinants -/

theorem rowSwap_mul {n : ℕ} (D K : Mat n) (r s : Fin n) :
    rowSwap D r s * K = rowSwap (D * K) r s := by
  ext i j
  by_cases hir : i = r <;> by_cases his : i = s <;>
    simp [rowSwap, Matrix.mul_apply, hir, his]

theorem addRowMul_mul {n : ℕ} (D K : Mat n) (k i : Fin n) (d : z97) :
    addRowMul D k i d * K = addRowMul (D * K) k i d := by
  ext r j
  by_cases hrk : r = k
  · subst hrk
    simp [addRowMul, Matrix.mul_apply, Matrix.updateRow_apply, sub_mul,
      Finset.sum_sub_distrib, Finset.mul_sum, mul_assoc]
  · simp [addRowMul, Matrix.mul_apply, Matrix.updateRow_apply, hrk]

theorem scaleRowDiv_mul {n : ℕ} (D K : Mat n) (i : Fin n) (p : z97) :
    scaleRowDiv D i p * K = scaleRowDiv (D * K) i p := by
  ext r j
  by_cases hri : r = i
  · subst hri
    show ∑ x, (D.updateRow r fun c => D r c / p) r x * K x j
        = ((D * K).updateRow r fun c => (D * K) r c / p) r j
    simp only [Matrix.updateRow_self, Matrix.mul_apply, div_eq_mul_inv,
      Finset.sum_mul]
    exact Finset.sum_congr rfl fun x _ => by ring
  · simp [scaleRowDiv, Matrix.mul_apply, Matrix.updateRow_ne hri]

theorem rowSwap_eq_submatrix {n : ℕ} (D : Mat n) (r s : Fin n) :
    rowSwap D r s = D.submatrix (Equiv.swap r s) id := by
  ext i j
  by_cases hir : i = r
  · subst hir
    simp [rowSwap, Equiv.swap_apply_left]
  · by_cases his : i = s
    · subst his
      simp [rowSwap, hir, Equiv.swap_apply_right]
    · simp [rowSwap, hir, his, Equiv.swap_apply_of_ne_of_ne hir his]

theorem det_rowSwap_ne_zero {n : ℕ} (D : Mat n) (r s : Fin n)
    (h : D.det ≠ 0) : (rowSwap D r s).det ≠ 0 := by
  rw [rowSwap_eq_submatrix, Matrix.det_permute]
  rcases Int.units_eq_one_or (Equiv.Perm.sign (Equiv.swap r s)) with h1 | h1 <;>
    simp [h1, h]

theorem det_addRowMul {n : ℕ} (D : Mat n) (k i : Fin n) (d : z97)
    (hki : k ≠ i) : (addRowMul D k i d).det = D.det := by
  have : addRowMul D k i d = D.updateRow k (D k + (-d) • D i) := by
    ext r j
    by_cases hrk : r = k <;>
      simp [addRowMul, Matrix.updateRow_apply, hrk, sub_eq_add_neg]
  rw [this, Matrix.det_updateRow_add_smul_self D hki]

theorem det_scaleRowDiv {n : ℕ} (D : Mat n) (i : Fin n) (p : z97) :
    (scaleRowDiv D i p).det = p⁻¹ * D.det := by
  have : scaleRowDiv D i p = D.updateRow i (p⁻¹ • D i) := by
    ext r j
    by_cases hri : r = i <;>
      simp [scaleRowDiv, Matrix.updateRow_apply, hri, div_eq_inv_mul]
  rw [this, Matrix.det_updateRow_smul, Matrix.updateRow_eq_self]

theorem idMat_eq_one {n : ℕ} : idMat n = (1 : Mat n) := by
  ext i j
  simp [idMat, Matrix.one_apply, eq_comm]

/-- A matrix whose rows at or below row `i` vanish on all columns up to and
including column `i` is singular: in every permutation some column `≤ i`
is sent to a row `≥ i`, so every summand of the determinant vanishes. -/
theorem det_eq_zero_of_lowerLeft_zero {n : ℕ} (M : Mat n) (i : Fin n)
    (h : ∀ r c : Fin n, c.val ≤ i.val → i.val ≤ r.val → M r c = 0) :
    M.det = 0 := by
  rw [Matrix.det_apply]
  apply Finset.sum_eq_zero
  intro σ _
  have hc : ∃ c : Fin n, c.val ≤ i.val ∧ i.val ≤ (σ c).val := by
    by_contra hcon
    push_neg at hcon
    have hemb : i.val + 1 ≤ n := i.isLt
    have hembS : (Finset.univ.map (Fin.castLEEmb hemb)).card = i.val + 1 := by
      simp
    have hT : ∀ x : Fin n, x.val < i.val →
        x ∈ Finset.univ.map (Fin.castLEEmb (le_of_lt i.isLt)) := by
      intro x hx
      simp only [Finset.mem_map, Finset.mem_univ, true_and]
      exact ⟨⟨x.val, hx⟩, by ext; simp⟩
    have hmaps : ∀ a ∈ Finset.univ.map (Fin.castLEEmb hemb),
        σ a ∈ Finset.univ.map (Fin.castLEEmb (le_of_lt i.isLt)) := by
      intro a ha
      simp only [Finset.mem_map, Finset.mem_univ, true_and] at ha
      obtain ⟨b, hb⟩ := ha
      apply hT
      apply hcon
      rw [← hb]
      simpa using Nat.lt_succ_iff.mp b.isLt
    have hinj : Set.InjOn σ (Finset.univ.map (Fin.castLEEmb hemb) : Finset (Fin n)) :=
      fun a _ b _ hab => σ.injective hab
    have hcard := Finset.card_le_card_of_injOn σ hmaps hinj
    rw [hembS] at hcard
    simp at hcard
  obtain ⟨c, hc1, hc2⟩ := hc
  have hz : M (σ c) c = 0 := h (σ c) c hc1 hc2
  have hp : (∏ x : Fin n, M (σ x) x) = 0 :=
    Finset.prod_eq_zero (Finset.mem_univ c) hz
  rw [hp, smul_zero]

/-! ### The Gauss-Jordan invariants

The two matrices receive the same row operations, so throughout the run
`key = dec * K₀` and `dec` stays invertible; forward elimination zeroes out
the entries below processed pivots; back substitution turns processed
columns into standard basis columns. -/

/-- Both matrices carry the same row operations: the current `key` is the
current `dec` times the original key, and `dec` remains invertible. -/
def Inv1 {n : ℕ} (K0 : Mat n) (s : GJState n) : Prop :=
  s.key = s.dec * K0 ∧ s.dec.det ≠ 0

/-- Columns before `b` are zero strictly below the diagonal. -/
def ZeroBelow {n : ℕ} (M : Mat n) (b : ℕ) : Prop :=
  ∀ r c : Fin n, c.val < b → c.val < r.val → M r c = 0

/-- Columns from `b` on are standard basis columns. -/
def ColsId {n : ℕ} (M : Mat n) (b : ℕ) : Prop :=
  ∀ c : Fin n, b ≤ c.val → ∀ r, M r c = if r = c then 1 else 0

theorem zeroBelow_mono {n : ℕ} {M : Mat n} {b b' : ℕ} (h : b' ≤ b)
    (hz : ZeroBelow M b) : ZeroBelow M b' :=
  fun r c hc hcr => hz r c (lt_of_lt_of_le hc h) hcr

/-! ### Pivot search -/

/-- `pivotSearch` returns a row index in `[i, n)` whose raw value bounds the
raw value of every candidate pivot in rows `[i, n)` of column `i`. -/
theorem pivotSearch_spec {n : ℕ} (key : Mat n) (i : Fin n) :
    i.val ≤ (pivotSearch key i).2 ∧ (pivotSearch key i).2 < n ∧
      (∀ h : (pivotSearch key i).2 < n,
        (pivotSearch key i).1 = (key ⟨(pivotSearch key i).2, h⟩ i).val) ∧
      ∀ k : Fin n, i ≤ k → (key k i).val ≤ (pivotSearch key i).1 := by
  have main : ∀ (l : List ℕ) (acc : ℕ × ℕ),
      (∀ k ∈ l, i.val < k ∧ k < n) →
      i.val ≤ acc.2 → acc.2 < n →
      (∀ h : acc.2 < n, acc.1 = (key ⟨acc.2, h⟩ i).val) →
      (key i i).val ≤ acc.1 →
      (let res := l.foldl
          (fun acc k =>
            if h : k < n then
              if (key ⟨k, h⟩ i).val > acc.1 then ((key ⟨k, h⟩ i).val, k) else acc
            else acc) acc
       i.val ≤ res.2 ∧ res.2 < n ∧
        (∀ h : res.2 < n, res.1 = (key ⟨res.2, h⟩ i).val) ∧
        (key i i).val ≤ res.1 ∧ acc.1 ≤ res.1 ∧
        ∀ k ∈ l, ∀ h : k < n, (key ⟨k, h⟩ i).val ≤ res.1) := by
    intro l
    induction l with
    | nil =>
      intro acc _ h1 h2 h3 h4
      exact ⟨h1, h2, h3, h4, le_refl _, by simp⟩
    | cons k0 l ih =>
      intro acc hl h1 h2 h3 h4
      have hk0 := hl k0 (List.mem_cons_self k0 l)
      simp only [List.foldl_cons, dif_pos hk0.2]
      by_cases hgt : (key ⟨k0, hk0.2⟩ i).val > acc.1
      · simp only [if_pos hgt]
        have step := ih ((key ⟨k0, hk0.2⟩ i).val, k0)
          (fun k hk => hl k (List.mem_cons_of_mem _ hk))
          (le_of_lt hk0.1) hk0.2 (fun h => rfl) (le_trans h4 (le_of_lt hgt))
        refine ⟨step.1, step.2.1, step.2.2.1, step.2.2.2.1, ?_, ?_⟩
        · exact le_trans (le_of_lt hgt) step.2.2.2.2.1
        · intro k hk h
          rcases List.mem_cons.mp hk with hk | hk
          · subst hk
            exact step.2.2.2.2.1
          · exact step.2.2.2.2.2 k hk h
      · simp only [if_neg hgt]
        have step := ih acc (fun k hk => hl k (List.mem_cons_of_mem _ hk))
          h1 h2 h3 h4
        refine ⟨step.1, step.2.1, step.2.2.1, step.2.2.2.1,
          step.2.2.2.2.1, ?_⟩
        intro k hk h
        rcases List.mem_cons.mp hk with hk | hk
        · subst hk
          exact le_trans (le_of_not_lt hgt) step.2.2.2.2.1
        · exact step.2.2.2.2.2 k hk h
  have hl : ∀ k ∈ List.range' (i.val + 1) (n - (i.val + 1)),
      i.val < k ∧ k < n := by
    intro k hk
    rw [List.mem_range'] at hk
    obtain ⟨m, hm, hkm⟩ := hk
    omega
  have res := main (List.range' (i.val + 1) (n - (i.val + 1)))
    ((key i i).val, i.val) hl (le_refl _) i.isLt
    (fun h => by congr 1) (le_refl _)
  refine ⟨res.1, res.2.1, res.2.2.1, ?_⟩
  intro k hk
  rcases eq_or_lt_of_le hk with hk | hk
  · have : k = i := Fin.ext (congrArg Fin.val hk.symm)
    subst this
    exact res.2.2.2.1
  · have hkmem : k.val ∈ List.range' (i.val + 1) (n - (i.val + 1)) := by
      rw [List.mem_range']
      exact ⟨k.val - (i.val + 1), by omega, by omega⟩
    have := res.2.2.2.2.2 k.val hkmem k.isLt
    simpa using this

/-! ### Forward elimination -/

theorem elim_fold {n : ℕ} (K0 : Mat n) (i : Fin n) (l : List ℕ)
    (hl : ∀ k ∈ l, i.val < k ∧ k < n) (s : GJState n)
    (hinv : Inv1 K0 s) (hzb : ZeroBelow s.key i.val)
    (hcov : ∀ k : Fin n, i < k → k.val ∉ l → s.key k i = 0) :
    (∀ e, foldE (natStepE (elimStep i)) s l = .error e →
      e = notInvMsg ∧ s.key i i = 0) ∧
    (∀ s', foldE (natStepE (elimStep i)) s l = .ok s' →
      Inv1 K0 s' ∧ ZeroBelow s'.key i.val ∧
      (∀ j, s'.key i j = s.key i j) ∧
      ∀ k : Fin n, i < k → s'.key k i = 0) := by
  induction l generalizing s with
  | nil =>
    constructor
    · intro e he
      simp [foldE] at he
    · intro s' hs'
      simp only [foldE, Except.ok.injEq] at hs'
      subst hs'
      exact ⟨hinv, hzb, fun j => rfl, fun k hk => hcov k hk (by simp)⟩
  | cons k0 l ih =>
    have hk0 := hl k0 (List.mem_cons_self k0 l)
    have hk0f : Fin.mk k0 hk0.2 ≠ i := by
      intro h
      have := congrArg Fin.val h
      simp at this
      omega
    by_cases hz : s.key i i = 0
    · have hfold : foldE (natStepE (elimStep i)) s (k0 :: l) = .error notInvMsg := by
        rw [foldE_cons]
        simp [natStepE, dif_pos hk0.2, elimStep, if_pos hz]
      constructor
      · intro e he
        rw [hfold] at he
        exact ⟨((Except.error.injEq _ _).mp he).symm, hz⟩
      · intro s' hs'
        rw [hfold] at hs'
        exact absurd hs' (by simp)
    · set d := s.key ⟨k0, hk0.2⟩ i / s.key i i with hd
      set s2 : GJState n :=
        ⟨addRowMul s.key ⟨k0, hk0.2⟩ i d, addRowMul s.dec ⟨k0, hk0.2⟩ i d⟩
        with hs2
      have hfold : foldE (natStepE (elimStep i)) s (k0 :: l) =
          foldE (natStepE (elimStep i)) s2 l := by
        rw [foldE_cons]
        simp [natStepE, dif_pos hk0.2, elimStep, if_neg hz]
      have hrowi : ∀ j, s2.key i j = s.key i j := by
        intro j
        show (addRowMul s.key ⟨k0, hk0.2⟩ i d) i j = s.key i j
        rw [addRowMul, Matrix.updateRow_ne (Ne.symm hk0f)]
      have hinv2 : Inv1 K0 s2 := by
        constructor
        · show addRowMul s.key ⟨k0, hk0.2⟩ i d = addRowMul s.dec ⟨k0, hk0.2⟩ i d * K0
          rw [addRowMul_mul, hinv.1]
        · show (addRowMul s.dec ⟨k0, hk0.2⟩ i d).det ≠ 0
          rw [det_addRowMul _ _ _ _ hk0f]
          exact hinv.2
      have hzb2 : ZeroBelow s2.key i.val := by
        intro r c hc hcr
        by_cases hr : r = ⟨k0, hk0.2⟩
        · subst hr
          have h1 : s.key ⟨k0, hk0.2⟩ c = 0 := hzb _ c hc hcr
          have h2 : s.key i c = 0 := hzb i c hc (by omega)
          show (addRowMul s.key ⟨k0, hk0.2⟩ i d) ⟨k0, hk0.2⟩ c = 0
          rw [addRowMul, Matrix.updateRow_self]
          simp [h1, h2]
        · show (addRowMul s.key ⟨k0, hk0.2⟩ i d) r c = 0
          rw [addRowMul, Matrix.updateRow_ne hr]
          exact hzb r c hc hcr
      have hcov2 : ∀ k : Fin n, i < k → k.val ∉ l → s2.key k i = 0 := by
        intro k hk hkl
        by_cases hkk0 : k = ⟨k0, hk0.2⟩
        · subst hkk0
          show (addRowMul s.key ⟨k0, hk0.2⟩ i d) ⟨k0, hk0.2⟩ i = 0
          rw [addRowMul, Matrix.updateRow_self]
          show s.key ⟨k0, hk0.2⟩ i - d * s.key i i = 0
          rw [hd, div_mul_cancel₀ _ hz, sub_self]
        · have h0 : s.key k i = 0 := by
            apply hcov k hk
            intro hmem
            rcases List.mem_cons.mp hmem with h | h
            · exact hkk0 (Fin.ext h)
            · exact hkl h
          show (addRowMul s.key ⟨k0, hk0.2⟩ i d) k i = 0
          rw [addRowMul, Matrix.updateRow_ne hkk0]
          exact h0
      have h2 := ih (fun k hk => hl k (List.mem_cons_of_mem _ hk)) s2
        hinv2 hzb2 hcov2
      constructor
      · intro e he
        rw [hfold] at he
        obtain ⟨he1, he2⟩ := h2.1 e he
        exact absurd ((hrowi i).symm.trans he2) hz
      · intro s' hs'
        rw [hfold] at hs'
        obtain ⟨ha, hb, hc, hd'⟩ := h2.2 s' hs'
        exact ⟨ha, hb, fun j => (hc j).trans (hrowi j), hd'⟩

theorem swapState_inv1 {n : ℕ} (K0 : Mat n) (s : GJState n) (i m : Fin n)
    (hinv : Inv1 K0 s) :
    Inv1 K0 ⟨rowSwap s.key i m, rowSwap s.dec i m⟩ :=
  ⟨by rw [rowSwap_mul]; show rowSwap s.key i m = rowSwap (s.dec * K0) i m;
      rw [hinv.1],
   det_rowSwap_ne_zero _ _ _ hinv.2⟩

theorem swapState_zeroBelow {n : ℕ} (M : Mat n) (i m : Fin n) (b : ℕ)
    (hbi : b ≤ i.val) (hbm : b ≤ m.val) (hzb : ZeroBelow M b) :
    ZeroBelow (rowSwap M i m) b := by
  intro r c hc hcr
  rw [rowSwap, Matrix.of_apply]
  by_cases hri : r = i
  · rw [if_pos hri]
    exact hzb m c hc (by omega)
  · rw [if_neg hri]
    by_cases hrm : r = m
    · rw [if_pos hrm]
      exact hzb i c hc (by omega)
    · rw [if_neg hrm]
      exact hzb r c hc hcr

theorem forwardPivot_spec {n : ℕ} (K0 : Mat n) (i : Fin n) (s : GJState n)
    (hinv : Inv1 K0 s) (hzb : ZeroBelow s.key i.val) :
    (∀ e, forwardPivot s i = .error e → e = notInvMsg ∧ K0.det = 0) ∧
    (∀ s', forwardPivot s i = .ok s' →
      Inv1 K0 s' ∧ ZeroBelow s'.key (i.val + 1)) := by
  obtain ⟨hps1, hps2, hps3, hps4⟩ := pivotSearch_spec s.key i
  set mr := (pivotSearch s.key i).2 with hmr
  set mf : Fin n := ⟨mr, hps2⟩ with hmf
  have him : i.val ≤ mf.val := hps1
  set s1 : GJState n :=
    if h : mr < n then
      if i.val < mr then ⟨rowSwap s.key i ⟨mr, h⟩, rowSwap s.dec i ⟨mr, h⟩⟩
      else s
    else s
    with hs1def
  have hs1 : s1 = if i.val < mr then
      ⟨rowSwap s.key i mf, rowSwap s.dec i mf⟩ else s := by
    rw [hs1def, dif_pos hps2]
  have hfp : forwardPivot s i =
      foldE (natStepE (elimStep i)) s1 (List.range' (i.val + 1) (n - (i.val + 1))) := rfl
  have hinv1 : Inv1 K0 s1 := by
    rw [hs1]
    by_cases hlt : i.val < mr
    · rw [if_pos hlt]
      exact swapState_inv1 K0 s i mf hinv
    · rw [if_neg hlt]
      exact hinv
  have hzb1 : ZeroBelow s1.key i.val := by
    rw [hs1]
    by_cases hlt : i.val < mr
    · rw [if_pos hlt]
      exact swapState_zeroBelow s.key i mf i.val (le_refl _) him hzb
    · rw [if_neg hlt]
      exact hzb
  -- after the swap, a zero pivot entry means the whole candidate column is zero
  have hcol : s1.key i i = 0 → ∀ k : Fin n, i ≤ k → s1.key k i = 0 := by
    intro h0 k hk
    have hii : s1.key i i = s.key mf i := by
      rw [hs1]
      by_cases hlt : i.val < mr
      · rw [if_pos hlt]
        show rowSwap s.key i mf i i = s.key mf i
        rw [rowSwap, Matrix.of_apply, if_pos rfl]
      · rw [if_neg hlt]
        have : mf = i := Fin.ext (show mr = i.val by omega)
        rw [this]
    have hvelo : (s.key mf i).val = 0 := by
      rw [← hii, h0, ZMod.val_zero]
    have hall : ∀ k' : Fin n, i ≤ k' → s.key k' i = 0 := by
      intro k' hk'
      have h1 := hps4 k' hk'
      have h2 := hps3 hps2
      rw [← hmf] at h2
      rw [h2] at h1
      exact (ZMod.val_eq_zero _).mp (by omega)
    rw [hs1]
    by_cases hlt : i.val < mr
    · rw [if_pos hlt]
      show rowSwap s.key i mf k i = 0
      rw [rowSwap, Matrix.of_apply]
      by_cases hki : k = i
      · rw [if_pos hki]
        exact hall mf him
      · rw [if_neg hki]
        by_cases hkm : k = mf
        · rw [if_pos hkm]
          exact hall i (le_refl i)
        · rw [if_neg hkm]
          exact hall k hk
    · rw [if_neg hlt]
      exact hall k hk
  have hl : ∀ k ∈ List.range' (i.val + 1) (n - (i.val + 1)),
      i.val < k ∧ k < n := by
    intro k hk
    rw [List.mem_range'] at hk
    obtain ⟨m, hm, hkm⟩ := hk
    omega
  have hcov : ∀ k : Fin n, i < k →
      k.val ∉ List.range' (i.val + 1) (n - (i.val + 1)) → s1.key k i = 0 := by
    intro k hk hkmem
    exfalso
    apply hkmem
    rw [List.mem_range']
    refine ⟨k.val - (i.val + 1), by have h1 := k.isLt; have h2 : i.val < k.val := hk; omega,
      by have h2 : i.val < k.val := hk; omega⟩
  constructor
  · intro e he
    rw [hfp] at he
    obtain ⟨he1, he2⟩ := (elim_fold K0 i _ hl s1 hinv1 hzb1 hcov).1 e he
    refine ⟨he1, ?_⟩
    have hklow : ∀ r c : Fin n, c.val ≤ i.val → i.val ≤ r.val → s1.key r c = 0 := by
      intro r c hc hr
      rcases lt_or_eq_of_le hc with hc | hc
      · exact hzb1 r c hc (by omega)
      · have : c = i := Fin.ext hc
        subst this
        exact hcol he2 r hr
    have hdet1 : s1.key.det = 0 := det_eq_zero_of_lowerLeft_zero s1.key i hklow
    rw [hinv1.1, Matrix.det_mul] at hdet1
    rcases mul_eq_zero.mp hdet1 with h | h
    · exact absurd h hinv1.2
    · exact h
  · intro s' hs'
    rw [hfp] at hs'
    obtain ⟨ha, hb, hc, hd⟩ := (elim_fold K0 i _ hl s1 hinv1 hzb1 hcov).2 s' hs'
    refine ⟨ha, ?_⟩
    intro r c hcb hcr
    rcases Nat.lt_succ_iff_lt_or_eq.mp hcb with hlt | heq
    · exact hb r c hlt hcr
    · have : c = i := Fin.ext heq
      subst this
      exact hd r (by exact hcr)

theorem forward_go {n : ℕ} (K0 : Mat n) (m : ℕ) :
    ∀ (j : ℕ), n - j = m → ∀ (s : GJState n), Inv1 K0 s →
    ZeroBelow s.key j →
    (∀ e, foldE (natStepE forwardPivot) s ((List.range n).drop j) = .error e →
      e = notInvMsg ∧ K0.det = 0) ∧
    (∀ s', foldE (natStepE forwardPivot) s ((List.range n).drop j) = .ok s' →
      Inv1 K0 s' ∧ ZeroBelow s'.key n) := by
  induction m with
  | zero =>
    intro j hj s hinv hzb
    have hdrop : (List.range n).drop j = [] :=
      List.drop_eq_nil_of_le (by simpa using by omega)
    rw [hdrop]
    constructor
    · intro e he
      simp [foldE] at he
    · intro s' hs'
      simp only [foldE, Except.ok.injEq] at hs'
      subst hs'
      exact ⟨hinv, zeroBelow_mono (by omega) hzb⟩
  | succ m ih =>
    intro j hj s hinv hzb
    have hjn : j < n := by omega
    have hdrop : (List.range n).drop j = j :: (List.range n).drop (j + 1) := by
      rw [List.drop_eq_getElem_cons (by simpa using hjn)]
      congr 1
      exact List.getElem_range j _
    rw [hdrop, foldE_cons]
    have hstep : natStepE forwardPivot s j = forwardPivot s ⟨j, hjn⟩ := by
      rw [natStepE, dif_pos hjn]
    rw [hstep]
    have hspec := forwardPivot_spec K0 ⟨j, hjn⟩ s hinv hzb
    cases hres : forwardPivot s ⟨j, hjn⟩ with
    | error e =>
      constructor
      · intro e' he'
        have : e = e' := by
          simpa using he'
        subst this
        exact hspec.1 e hres
      · intro s' hs'
        simp at hs'
    | ok s1 =>
      obtain ⟨h1, h2⟩ := hspec.2 s1 hres
      exact ih (j + 1) (by omega) s1 h1 h2

theorem forward_spec {n : ℕ} (K0 : Mat n) :
    (∀ e, forward (GJState.mk K0 (idMat n)) = .error e →
      e = notInvMsg ∧ K0.det = 0) ∧
    (∀ s', forward (GJState.mk K0 (idMat n)) = .ok s' →
      Inv1 K0 s' ∧ ZeroBelow s'.key n) := by
  have h0 : Inv1 K0 (GJState.mk K0 (idMat n)) := by
    constructor
    · show K0 = idMat n * K0
      rw [idMat_eq_one, one_mul]
    · show (idMat n).det ≠ 0
      rw [idMat_eq_one, Matrix.det_one]
      exact one_ne_zero
  have hzb0 : ZeroBelow (GJState.mk K0 (idMat n)).key 0 := by
    intro r c hc hcr
    omega
  have := forward_go K0 (n - 0) 0 rfl (GJState.mk K0 (idMat n)) h0 hzb0
  simpa [forward] using this

/-! ### Back substitution -/

theorem backRows_fold {n : ℕ} (K0 : Mat n) (i : Fin n) (l : List ℕ)
    (hl : ∀ r ∈ l, r < i.val) (s : GJState n)
    (hinv : Inv1 K0 s) (hzb : ZeroBelow s.key n) (hci : ColsId s.key (i.val + 1))
    (hrow : ∀ c, s.key i c = if c = i then 1 else 0)
    (hcov : ∀ r : Fin n, r < i → r.val ∉ l → s.key r i = 0) :
    let s' := l.foldl (natStep (backRowStep i)) s
    Inv1 K0 s' ∧ ZeroBelow s'.key n ∧ ColsId s'.key (i.val + 1) ∧
      (∀ c, s'.key i c = if c = i then 1 else 0) ∧
      ∀ r : Fin n, r < i → s'.key r i = 0 := by
  induction l generalizing s with
  | nil =>
    exact ⟨hinv, hzb, hci, hrow, fun r hr => hcov r hr (by simp)⟩
  | cons r0 l ih =>
    have hr0 := hl r0 (List.mem_cons_self r0 l)
    have hr0n : r0 < n := lt_trans hr0 i.isLt
    have hr0f : Fin.mk r0 hr0n ≠ i := by
      intro h
      have := congrArg Fin.val h
      simp at this
      omega
    simp only [List.foldl_cons]
    have hstep : natStep (backRowStep i) s r0 = backRowStep i s ⟨r0, hr0n⟩ := by
      rw [natStep, dif_pos hr0n]
    rw [hstep]
    set mval := s.key ⟨r0, hr0n⟩ i with hmval
    set s2 := backRowStep i s ⟨r0, hr0n⟩ with hs2
    have hs2key : s2.key = setEntry s.key ⟨r0, hr0n⟩ i 0 := rfl
    have hs2dec : s2.dec =
        s.dec.updateRow ⟨r0, hr0n⟩ (fun c => s.dec ⟨r0, hr0n⟩ c - s.dec i c * mval) := rfl
    -- the key update coincides with the row operation `row r0 -= m * row i`
    have hkey_eq : s2.key = addRowMul s.key ⟨r0, hr0n⟩ i mval := by
      rw [hs2key]
      ext r c
      by_cases hr : r = ⟨r0, hr0n⟩
      · subst hr
        rw [addRowMul, Matrix.updateRow_self]
        by_cases hc : c = i
        · subst hc
          rw [setEntry, Matrix.of_apply, if_pos ⟨rfl, rfl⟩]
          rw [hrow c, if_pos rfl]
          ring
        · rw [setEntry, Matrix.of_apply, if_neg (by tauto)]
          rw [hrow c, if_neg hc]
          ring
      · rw [addRowMul, Matrix.updateRow_ne hr, setEntry, Matrix.of_apply,
          if_neg (by tauto)]
    have hdec_eq : s2.dec = addRowMul s.dec ⟨r0, hr0n⟩ i mval := by
      rw [hs2dec, addRowMul]
      ext r c
      by_cases hr : r = ⟨r0, hr0n⟩
      · subst hr
        simp only [Matrix.updateRow_self]
        ring
      · simp only [Matrix.updateRow_ne hr]
    have hinv2 : Inv1 K0 s2 := by
      constructor
      · rw [hkey_eq, hdec_eq, addRowMul_mul, hinv.1]
      · rw [hdec_eq, det_addRowMul _ _ _ _ hr0f]
        exact hinv.2
    have hzb2 : ZeroBelow s2.key n := by
      intro r c hc hcr
      rw [hs2key, setEntry, Matrix.of_apply]
      by_cases hmem : r = ⟨r0, hr0n⟩ ∧ c = i
      · obtain ⟨h1, h2⟩ := hmem
        subst h1; subst h2
        rw [if_pos ⟨rfl, rfl⟩]
      · rw [if_neg hmem]
        exact hzb r c hc hcr
    have hci2 : ColsId s2.key (i.val + 1) := by
      intro c hc r
      rw [hs2key, setEntry, Matrix.of_apply, if_neg]
      · exact hci c hc r
      · rintro ⟨h1, h2⟩
        subst h2
        omega
    have hrow2 : ∀ c, s2.key i c = if c = i then 1 else 0 := by
      intro c
      rw [hs2key, setEntry, Matrix.of_apply, if_neg]
      · exact hrow c
      · rintro ⟨h1, h2⟩
        exact hr0f h1.symm
    have hcov2 : ∀ r : Fin n, r < i → r.val ∉ l → s2.key r i = 0 := by
      intro r hr hrl
      rw [hs2key, setEntry, Matrix.of_apply]
      by_cases hrr0 : r = ⟨r0, hr0n⟩
      · rw [if_pos ⟨hrr0, rfl⟩]
      · rw [if_neg (by tauto)]
        apply hcov r hr
        intro hmem
        rcases List.mem_cons.mp hmem with h | h
        · exact hrr0 (Fin.ext h)
        · exact hrl h
    exact ih (fun r hr => hl r (List.mem_cons_of_mem _ hr)) s2
      hinv2 hzb2 hci2 hrow2 hcov2

theorem backPivot_spec {n : ℕ} (K0 : Mat n) (i : Fin n) (s : GJState n)
    (hinv : Inv1 K0 s) (hzb : ZeroBelow s.key n) (hci : ColsId s.key (i.val + 1)) :
    (∀ e, backPivot s i = .error e → e = notInvMsg ∧ K0.det = 0) ∧
    (∀ s', backPivot s i = .ok s' →
      Inv1 K0 s' ∧ ZeroBelow s'.key n ∧ ColsId s'.key i.val) := by
  -- off-diagonal entries of row i are already zero
  have hrow0 : ∀ c : Fin n, c ≠ i → s.key i c = 0 := by
    intro c hc
    rcases lt_trichotomy c.val i.val with h | h | h
    · exact hzb i c (lt_trans h i.isLt) h
    · exact absurd (Fin.ext h) hc
    · rw [hci c (by omega) i, if_neg (by intro hh; exact hc (by rw [hh]))]
  by_cases hz : s.key i i = 0
  · have hres : backPivot s i = .error notInvMsg := by
      rw [backPivot, if_pos hz]
    constructor
    · intro e he
      rw [hres] at he
      refine ⟨((Except.error.injEq _ _).mp he).symm, ?_⟩
      have hrowz : ∀ c, s.key i c = 0 := by
        intro c
        by_cases hc : c = i
        · rw [hc, hz]
        · exact hrow0 c hc
      have hdet : s.key.det = 0 := Matrix.det_eq_zero_of_row_eq_zero i hrowz
      rw [hinv.1, Matrix.det_mul] at hdet
      rcases mul_eq_zero.mp hdet with h | h
      · exact absurd h hinv.2
      · exact h
    · intro s' hs'
      rw [hres] at hs'
      exact absurd hs' (by simp)
  · set p := s.key i i with hp
    set s1 : GJState n := ⟨setEntry s.key i i 1, scaleRowDiv s.dec i p⟩ with hs1
    have hres : backPivot s i = .ok (if i.val = 0 then s1
        else downFrom (natStep (backRowStep i)) (i.val - 1) s1) := by
      rw [backPivot, if_neg hz]
      by_cases h0 : i.val = 0
      · rw [if_pos h0, if_pos h0]
      · rw [if_neg h0, if_neg h0]
    -- the sparse key update is the same row operation applied to both halves
    have hkey1 : s1.key = scaleRowDiv s.key i p := by
      ext r c
      by_cases hr : r = i
      · subst hr
        rw [scaleRowDiv, Matrix.updateRow_self]
        by_cases hc : c = r
        · rw [show s1.key = setEntry s.key r r 1 from rfl, setEntry,
            Matrix.of_apply, if_pos ⟨rfl, hc⟩, hc, ← hp, div_self hz]
        · rw [show s1.key = setEntry s.key r r 1 from rfl, setEntry,
            Matrix.of_apply, if_neg (by tauto),
            hrow0 c (by intro hh; exact hc hh), zero_div]
      · rw [scaleRowDiv, Matrix.updateRow_ne hr,
          show s1.key = setEntry s.key i i 1 from rfl, setEntry,
          Matrix.of_apply, if_neg (by tauto)]
    have hinv1 : Inv1 K0 s1 := by
      constructor
      · rw [hkey1, show s1.dec = scaleRowDiv s.dec i p from rfl,
          scaleRowDiv_mul, hinv.1]
      · rw [show s1.dec = scaleRowDiv s.dec i p from rfl, det_scaleRowDiv]
        exact mul_ne_zero (inv_ne_zero hz) hinv.2
    have hzb1 : ZeroBelow s1.key n := by
      intro r c hc hcr
      rw [show s1.key = setEntry s.key i i 1 from rfl, setEntry, Matrix.of_apply,
        if_neg]
      · exact hzb r c hc hcr
      · rintro ⟨h1, h2⟩
        rw [h1, h2] at hcr
        omega
    have hci1 : ColsId s1.key (i.val + 1) := by
      intro c hc r
      rw [show s1.key = setEntry s.key i i 1 from rfl, setEntry, Matrix.of_apply,
        if_neg]
      · exact hci c hc r
      · rintro ⟨h1, h2⟩
        rw [h2] at hc
        omega
    have hrow1 : ∀ c, s1.key i c = if c = i then 1 else 0 := by
      intro c
      by_cases hc : c = i
      · rw [if_pos hc, show s1.key = setEntry s.key i i 1 from rfl, setEntry,
          Matrix.of_apply, if_pos ⟨rfl, hc⟩]
      · rw [if_neg hc, show s1.key = setEntry s.key i i 1 from rfl, setEntry,
          Matrix.of_apply, if_neg (by tauto)]
        exact hrow0 c hc
    constructor
    · intro e he
      rw [hres] at he
      exact absurd he (by simp)
    · intro s' hs'
      rw [hres] at hs'
      have hs'eq : s' = if i.val = 0 then s1
          else downFrom (natStep (backRowStep i)) (i.val - 1) s1 :=
        ((Except.ok.injEq _ _).mp hs').symm
      by_cases h0 : i.val = 0
      · rw [if_pos h0] at hs'eq
        subst hs'eq
        refine ⟨hinv1, hzb1, ?_⟩
        intro c hc r
        rcases Nat.eq_or_lt_of_le hc with hh | hh
        · have hc_i : c = i := Fin.ext (by omega)
          subst hc_i
          by_cases hr : r = c
          · rw [if_pos hr, hr, hrow1 c, if_pos rfl]
          · rw [if_neg hr]
            have hrv : c.val < r.val := by
              rcases lt_trichotomy r.val c.val with hx | hx | hx
              · omega
              · exact absurd (Fin.ext hx) hr
              · exact hx
            exact hzb1 r c (lt_of_lt_of_le hrv (le_of_lt r.isLt)) hrv
        · exact hci1 c (by omega) r
      · rw [if_neg h0] at hs'eq
        rw [downFrom_eq_foldl] at hs'eq
        have hidx : i.val - 1 + 1 = i.val := by omega
        rw [hidx] at hs'eq
        have hl : ∀ r ∈ (List.range i.val).reverse, r < i.val := by
          intro r hr
          rw [List.mem_reverse, List.mem_range] at hr
          exact hr
        have hcov : ∀ r : Fin n, r < i →
            r.val ∉ (List.range i.val).reverse → s1.key r i = 0 := by
          intro r hr hmem
          exfalso
          apply hmem
          rw [List.mem_reverse, List.mem_range]
          exact hr
        have hfold := backRows_fold K0 i (List.range i.val).reverse hl s1
          hinv1 hzb1 hci1 hrow1 hcov
        rw [← hs'eq] at hfold
        obtain ⟨ha, hb, hc, hd, he⟩ := hfold
        refine ⟨ha, hb, ?_⟩
        intro c hcb r
        rcases Nat.eq_or_lt_of_le hcb with hh | hh
        · have hc_i : c = i := Fin.ext (by omega)
          subst hc_i
          by_cases hr : r = c
          · rw [if_pos hr, hr, hd c, if_pos rfl]
          · rw [if_neg hr]
            rcases lt_trichotomy r.val c.val with hx | hx | hx
            · exact he r hx
            · exact absurd (Fin.ext hx) hr
            · exact hb r c (lt_of_lt_of_le hx (le_of_lt r.isLt)) hx
        · exact hc c (by omega) r

theorem backward_go {n : ℕ} (K0 : Mat n) (j : ℕ) (hj : j ≤ n) :
    ∀ (s : GJState n), Inv1 K0 s → ZeroBelow s.key n → ColsId s.key j →
    (∀ e, foldE (natStepE backPivot) s ((List.range j).reverse) = .error e →
      e = notInvMsg ∧ K0.det = 0) ∧
    (∀ s', foldE (natStepE backPivot) s ((List.range j).reverse) = .ok s' →
      Inv1 K0 s' ∧ ZeroBelow s'.key n ∧ ColsId s'.key 0) := by
  induction j with
  | zero =>
    intro s hinv hzb hci
    constructor
    · intro e he
      simp [foldE] at he
    · intro s' hs'
      simp only [List.range_zero, List.reverse_nil, foldE, Except.ok.injEq] at hs'
      subst hs'
      exact ⟨hinv, hzb, hci⟩
  | succ j ih =>
    intro s hinv hzb hci
    have hjn : j < n := by omega
    have hrev : (List.range (j + 1)).reverse = j :: (List.range j).reverse := by
      rw [List.range_succ, List.reverse_append]
      rfl
    rw [hrev, foldE_cons]
    have hstep : natStepE backPivot s j = backPivot s ⟨j, hjn⟩ := by
      rw [natStepE, dif_pos hjn]
    rw [hstep]
    have hspec := backPivot_spec K0 ⟨j, hjn⟩ s hinv hzb hci
    cases hres : backPivot s ⟨j, hjn⟩ with
    | error e =>
      constructor
      · intro e' he'
        have : e = e' := by simpa using he'
        subst this
        exact hspec.1 e hres
      · intro s' hs'
        simp at hs'
    | ok s1 =>
      obtain ⟨h1, h2, h3⟩ := hspec.2 s1 hres
      exact ih (by omega) s1 h1 h2 h3

theorem backPhase_eq_fold {n : ℕ} (s : GJState n) :
    downFromE (natStepE (backPivot (n := n))) (n - 1) s =
      foldE (natStepE backPivot) s ((List.range n).reverse) := by
  cases n with
  | zero =>
    show natStepE backPivot s 0 = .ok s
    rw [natStepE, dif_neg (by omega)]
  | succ m =>
    have : m + 1 - 1 = m := rfl
    rw [this, downFromE_eq_foldE]

theorem gaussRun_error {n : ℕ} (K : Mat n) (e : String)
    (he : gaussRun K = .error e) : e = notInvMsg ∧ K.det = 0 := by
  rw [gaussRun] at he
  cases hf : forward (GJState.mk K (idMat n)) with
  | error e' =>
    rw [hf] at he
    have : e' = e := by simpa using he
    subst this
    exact (forward_spec K).1 e' hf
  | ok s =>
    rw [hf] at he
    have he2 : downFromE (natStepE backPivot) (n - 1) s = .error e := he
    obtain ⟨h1, h2⟩ := (forward_spec K).2 s hf
    rw [backPhase_eq_fold] at he2
    have hci : ColsId s.key n := by
      intro c hc
      exact absurd c.isLt (by omega)
    exact (backward_go K n (le_refl n) s h1 h2 hci).1 e he2

theorem gaussRun_ok {n : ℕ} (K : Mat n) (s' : GJState n)
    (hs' : gaussRun K = .ok s') :
    s'.key = 1 ∧ s'.dec * K = 1 ∧ K * s'.dec = 1 ∧ K.det ≠ 0 := by
  rw [gaussRun] at hs'
  cases hf : forward (GJState.mk K (idMat n)) with
  | error e' =>
    rw [hf] at hs'
    simp at hs'
  | ok s =>
    rw [hf] at hs'
    have hs2 : downFromE (natStepE backPivot) (n - 1) s = .ok s' := hs'
    obtain ⟨h1, h2⟩ := (forward_spec K).2 s hf
    rw [backPhase_eq_fold] at hs2
    have hci : ColsId s.key n := by
      intro c hc
      exact absurd c.isLt (by omega)
    obtain ⟨hinv', hzb', hci'⟩ :=
      (backward_go K n (le_refl n) s h1 h2 hci).2 s' hs2
    have hkey1 : s'.key = 1 := by
      ext r c
      rw [hci' c (by omega) r, Matrix.one_apply]
    have hleft : s'.dec * K = 1 := by
      rw [← hkey1, hinv'.1]
    have hright : K * s'.dec = 1 := Matrix.mul_eq_one_comm.mp hleft
    refine ⟨hkey1, hleft, hright, ?_⟩
    intro hdet
    have : (s'.dec * K).det = 1 := by rw [hleft, Matrix.det_one]
    rw [Matrix.det_mul, hdet, mul_zero] at this
    exact zero_ne_one this

/-! ### `inverse_of`: both branches -/

/-- The closed-form 2×2 determinant used by the `size == 2` branch. -/
def det2 (K : Mat 2) : z97 := K 0 0 * K 1 1 - K 0 1 * K 1 0

/-- The matrix returned by the 2×2 branch when the determinant is nonzero. -/
def inv2mat (K : Mat 2) : Mat 2 :=
  Matrix.of fun r c =>
    if r = 0 then (if c = 0 then K 1 1 / det2 K else -K 0 1 / det2 K)
    else (if c = 0 then -K 1 0 / det2 K else K 0 0 / det2 K)

theorem inverse_of_two (K : Mat 2) :
    inverse_of 2 K =
      if K 0 0 * K 1 1 = K 0 1 * K 1 0 then .error notInvMsg
      else .ok (inv2mat K) := rfl

theorem det2_eq_det (K : Mat 2) : det2 K = K.det := by
  rw [Matrix.det_fin_two, det2]

theorem inv2mat_eq_inv (K : Mat 2) : inv2mat K = K⁻¹ := by
  rw [Matrix.inv_def, Matrix.adjugate_fin_two, Ring.inverse_eq_inv']
  ext r c
  fin_cases r <;> fin_cases c <;>
    simp [inv2mat, det2_eq_det, div_eq_inv_mul]

theorem inv2mat_mul (K : Mat 2) (h : K.det ≠ 0) : inv2mat K * K = 1 := by
  rw [inv2mat_eq_inv]
  exact Matrix.nonsing_inv_mul K (isUnit_iff_ne_zero.mpr h)

theorem mul_inv2mat (K : Mat 2) (h : K.det ≠ 0) : K * inv2mat K = 1 :=
  Matrix.mul_eq_one_comm.mp (inv2mat_mul K h)

theorem gaussInverse_spec {n : ℕ} (K : Mat n) :
    (∀ e, gaussInverse K = .error e → e = notInvMsg ∧ K.det = 0) ∧
    (∀ D, gaussInverse K = .ok D → D * K = 1 ∧ K * D = 1 ∧ K.det ≠ 0) ∧
    (K.det ≠ 0 → ∃ D, gaussInverse K = .ok D) := by
  refine ⟨?_, ?_, ?_⟩
  · intro e he
    rw [gaussInverse] at he
    cases hg : gaussRun K with
    | error e' =>
      rw [hg] at he
      have : e' = e := by simpa using he
      subst this
      exact gaussRun_error K e' hg
    | ok s =>
      rw [hg] at he
      simp at he
  · intro D hD
    rw [gaussInverse] at hD
    cases hg : gaussRun K with
    | error e' =>
      rw [hg] at hD
      simp at hD
    | ok s =>
      rw [hg] at hD
      have hDs : s.dec = D := by simpa using hD
      obtain ⟨h1, h2, h3, h4⟩ := gaussRun_ok K s hg
      rw [hDs] at h2 h3
      exact ⟨h2, h3, h4⟩
  · intro hdet
    rw [gaussInverse]
    cases hg : gaussRun K with
    | error e' =>
      exact absurd (gaussRun_error K e' hg).2 hdet
    | ok s =>
      exact ⟨s.dec, rfl⟩

/-- Full specification of `inverse_of`, both the 2×2 closed-form branch and
the Gauss-Jordan branch: a failure carries the `NotInvertible` message and
happens exactly on singular keys; a success returns a two-sided inverse. -/
theorem inverse_of_spec (n : ℕ) (K : Mat n) :
    (∀ e, inverse_of n K = .error e → e = notInvMsg ∧ K.det = 0) ∧
    (∀ D, inverse_of n K = .ok D → D * K = 1 ∧ K * D = 1 ∧ K.det ≠ 0) ∧
    (K.det ≠ 0 → ∃ D, inverse_of n K = .ok D) := by
  by_cases h2 : n = 2
  · subst h2
    rw [inverse_of_two]
    by_cases hguard : K 0 0 * K 1 1 = K 0 1 * K 1 0
    · rw [if_pos hguard]
      have hdet : K.det = 0 := by
        rw [Matrix.det_fin_two, sub_eq_zero]
        exact hguard
      refine ⟨?_, ?_, ?_⟩
      · intro e he
        exact ⟨((Except.error.injEq _ _).mp he).symm, hdet⟩
      · intro D hD
        exact absurd hD (by simp)
      · intro h
        exact absurd hdet h
    · rw [if_neg hguard]
      have hdet : K.det ≠ 0 := by
        rw [Matrix.det_fin_two]
        intro h
        exact hguard (sub_eq_zero.mp h)
      refine ⟨?_, ?_, ?_⟩
      · intro e he
        exact absurd he (by simp)
      · intro D hD
        have : inv2mat K = D := by simpa using hD
        rw [← this]
        exact ⟨inv2mat_mul K hdet, mul_inv2mat K hdet, hdet⟩
      · intro h
        exact ⟨inv2mat K, rfl⟩
  · have hrw : inverse_of n K = gaussInverse K := by
      rw [inverse_of, dif_neg h2]
    rw [hrw]
    exact gaussInverse_spec K

/-! ### Padding -/

theorem pad_arith (n L : ℕ) (hn : 0 < n) (h0 : L % n ≠ 0) :
    (n - (L + 1) % n) % n = (n - L % n) % n - 1 ∧ 1 ≤ (n - L % n) % n := by
  have hm : L % n < n := Nat.mod_lt _ hn
  have hn1 : n ≠ 1 := by
    intro h
    rw [h, Nat.mod_one] at h0
    exact h0 rfl
  have hone : 1 % n = 1 := Nat.one_mod_eq_one.mpr hn1
  have h1 : (L + 1) % n = (L % n + 1) % n := by
    rw [Nat.add_mod, hone]
  have h2 : (n - L % n) % n = n - L % n := Nat.mod_eq_of_lt (by omega)
  by_cases hme : L % n + 1 = n
  · have h3 : (L % n + 1) % n = 0 := by rw [hme, Nat.mod_self]
    rw [h1, h3, h2, Nat.sub_zero, Nat.mod_self]
    omega
  · have h3 : (L % n + 1) % n = L % n + 1 := Nat.mod_eq_of_lt (by omega)
    have h4 : (n - (L % n + 1)) % n = n - (L % n + 1) := Nat.mod_eq_of_lt (by omega)
    rw [h1, h3, h2, h4]
    omega

theorem padLoop_eq (n : ℕ) (hn : 0 < n) :
    ∀ (fuel : ℕ) (pt : List Char), (n - pt.length % n) % n ≤ fuel →
    padLoop n fuel pt = pt ++ List.replicate ((n - pt.length % n) % n) ' ' := by
  intro fuel
  induction fuel with
  | zero =>
    intro pt h
    have h0 : (n - pt.length % n) % n = 0 := Nat.le_zero.mp h
    rw [h0]
    simp [padLoop]
  | succ fuel ih =>
    intro pt h
    rw [padLoop]
    by_cases h0 : pt.length % n = 0
    · rw [if_pos h0, h0, Nat.sub_zero, Nat.mod_self]
      simp
    · rw [if_neg h0]
      obtain ⟨ha, hb⟩ := pad_arith n pt.length hn h0
      have hlen : (pt ++ [' ']).length = pt.length + 1 := by simp
      rw [ih (pt ++ [' ']) (by rw [hlen, ha]; omega)]
      rw [hlen, ha]
      rw [List.append_assoc]
      congr 1
      have : (n - pt.length % n) % n = ((n - pt.length % n) % n - 1) + 1 := by omega
      rw [this, List.replicate_succ]
      rfl

theorem padPT_eq (n : ℕ) (hn : 0 < n) (pt : List Char) :
    padPT n pt = pt ++ List.replicate ((n - pt.length % n) % n) ' ' := by
  apply padLoop_eq n hn
  exact le_of_lt (Nat.mod_lt _ hn)

theorem padPT_length_mod (n : ℕ) (hn : 0 < n) (pt : List Char) :
    (padPT n pt).length % n = 0 := by
  rw [padPT_eq n hn, List.length_append, List.length_replicate]
  by_cases h0 : pt.length % n = 0
  · rw [h0, Nat.sub_zero, Nat.mod_self, Nat.add_zero]
    exact h0
  · have hm : pt.length % n < n := Nat.mod_lt _ hn
    have h2 : (n - pt.length % n) % n = n - pt.length % n :=
      Nat.mod_eq_of_lt (by omega)
    rw [h2]
    have hsum : pt.length + (n - pt.length % n) = n * (pt.length / n) + n := by
      have hq := Nat.div_add_mod pt.length n
      omega
    rw [hsum, ← Nat.mul_succ, Nat.mul_mod_right]

theorem padPT_of_mod_zero (n : ℕ) (hn : 0 < n) (p : List Char)
    (h : p.length % n = 0) : padPT n p = p := by
  rw [padPT_eq n hn, h, Nat.sub_zero, Nat.mod_self]
  simp

/-! ### Blocks and flattening -/

theorem getD_flatten_uniform (n : ℕ) (L : List (List Char))
    (hL : ∀ l ∈ L, l.length = n) (d : Char) :
    ∀ (b j : ℕ), b < L.length → j < n →
    L.flatten.getD (b * n + j) d = (L.getD b []).getD j d := by
  induction L with
  | nil =>
    intro b j hb hj
    simp at hb
  | cons l L ih =>
    intro b j hb hj
    have hlen : l.length = n := hL l (List.mem_cons_self l L)
    cases b with
    | zero =>
      rw [List.flatten_cons, Nat.zero_mul, Nat.zero_add,
        List.getD_append _ _ _ _ (by omega), List.getD_cons_zero]
    | succ b =>
      rw [List.flatten_cons, List.getD_append_right _ _ _ _ (by
        rw [hlen]
        calc n ≤ (b + 1) * n := by nlinarith
        _ ≤ (b + 1) * n + j := Nat.le_add_right _ _)]
      have hidx : (b + 1) * n + j - l.length = b * n + j := by
        rw [hlen]
        ring_nf
        omega
      rw [hidx, List.getD_cons_succ]
      exact ih (fun x hx => hL x (List.mem_cons_of_mem _ hx)) b j
        (by simpa using hb) hj

theorem length_blocks_flatten (n m : ℕ) (G : ℕ → Fin n → Char) :
    (((List.range m).map (fun b => List.ofFn (G b))).flatten).length = m * n := by
  rw [List.length_flatten, List.map_map]
  have : (List.ofFn ∘ G) = fun b => List.ofFn (G b) := rfl
  have hmap : List.map (List.length ∘ fun b => List.ofFn (G b)) (List.range m)
      = List.map (Function.const ℕ n) (List.range m) := by
    apply List.map_congr_left
    intro b _
    simp [Function.comp, List.length_ofFn]
  rw [← List.map_map, List.map_map]
  rw [hmap, List.map_const, List.sum_replicate, List.length_range]
  simp [Nat.mul_comm]

theorem getD_blocks (n m : ℕ) (G : ℕ → Fin n → Char) (b : ℕ) (j : Fin n)
    (hb : b < m) (d : Char) :
    (((List.range m).map (fun b => List.ofFn (G b))).flatten).getD
      (b * n + j.val) d = G b j := by
  rw [getD_flatten_uniform n _ (by
      intro l hl
      rw [List.mem_map] at hl
      obtain ⟨x, _, hx⟩ := hl
      rw [← hx, List.length_ofFn]) d b j.val (by simpa using hb) j.isLt]
  have h1 : (List.map (fun b => List.ofFn (G b)) (List.range m)).getD b []
      = List.ofFn (G b) := by
    rw [List.getD_eq_getElem _ _ (by simpa using hb), List.getElem_map,
      List.getElem_range]
  rw [h1, List.getD_eq_getElem _ _ (by rw [List.length_ofFn]; exact j.isLt),
    List.getElem_ofFn]

theorem flatten_blocks_ext (n m : ℕ) (hn : 0 < n) (p : List Char) (d : Char)
    (hp : p.length = m * n) :
    ((List.range m).map
      (fun b => List.ofFn (fun j : Fin n => p.getD (b * n + j.val) d))).flatten
      = p := by
  have hL : (((List.range m).map
      (fun b => List.ofFn (fun j : Fin n => p.getD (b * n + j.val) d))).flatten).length
      = m * n := length_blocks_flatten n m _
  apply List.ext_getElem (by rw [hL, hp])
  intro i h1 h2
  rw [hL] at h1
  have hb : i / n < m := by
    rw [Nat.div_lt_iff_lt_mul hn]
    omega
  have hj : i % n < n := Nat.mod_lt _ hn
  have hidx : i / n * n + i % n = i := by
    rw [Nat.mul_comm]
    exact Nat.div_add_mod i n
  have hg := getD_blocks n m
    (fun b => fun j : Fin n => p.getD (b * n + j.val) d) (i / n) ⟨i % n, hj⟩
    hb d
  have hg2 : (((List.range m).map
      (fun b => List.ofFn (fun j : Fin n => p.getD (b * n + j.val) d))).flatten).getD
      i d = p.getD i d := by
    rw [show i = i / n * n + i % n from hidx.symm]
    exact hg
  calc (((List.range m).map
      (fun b => List.ofFn (fun j : Fin n => p.getD (b * n + j.val) d))).flatten)[i]
      = (((List.range m).map
        (fun b => List.ofFn (fun j : Fin n => p.getD (b * n + j.val) d))).flatten).getD
        i d := (List.getD_eq_getElem _ d _).symm
    _ = p.getD i d := hg2
    _ = p[i] := List.getD_eq_getElem _ d h2

/-! ### The encryption round trip -/

theorem space_mem_table : ' ' ∈ ch_table := by decide

theorem encryptPadded_length {n : ℕ} (key : Mat n) (p : List Char) :
    (encryptPadded n key p).length = (p.length / n) * n :=
  length_blocks_flatten n (p.length / n) _

theorem blockVec_encryptPadded {n : ℕ} (key : Mat n) (p : List Char)
    (b : ℕ) (hb : b < p.length / n) :
    blockVec n (encryptPadded n key p) b = key.mulVec (blockVec n p b) := by
  funext j
  show char_to_z97 ((encryptPadded n key p).getD (b * n + j.val) 'A')
      = key.mulVec (blockVec n p b) j
  rw [encryptPadded,
    getD_blocks n (p.length / n)
      (fun b => fun j : Fin n => z97_to_char (key.mulVec (blockVec n p b) j))
      b j hb 'A']
  exact char_roundtrip _

theorem encrypt_encrypt {n : ℕ} (hn : 0 < n) (K D : Mat n) (hDK : D * K = 1)
    (pt : List Char) (hpt : ∀ c ∈ pt, c ∈ ch_table) :
    encrypt n D (encrypt n K pt) =
      pt ++ List.replicate ((n - pt.length % n) % n) ' ' := by
  set p := padPT n pt with hpdef
  have hpeq : p = pt ++ List.replicate ((n - pt.length % n) % n) ' ' :=
    padPT_eq n hn pt
  have hpmod : p.length % n = 0 := padPT_length_mod n hn pt
  set m := p.length / n with hm
  have hplen : p.length = m * n := by
    rw [hm]
    exact (Nat.div_mul_cancel (Nat.dvd_of_mod_eq_zero hpmod)).symm
  have hpmem : ∀ c ∈ p, c ∈ ch_table := by
    rw [hpeq]
    intro c hc
    rcases List.mem_append.mp hc with h | h
    · exact hpt c h
    · rw [List.eq_of_mem_replicate h]
      exact space_mem_table
  set ct := encryptPadded n K p with hctdef
  have hct : encrypt n K pt = ct := by
    rw [encrypt, ← hpdef, hctdef]
  have hctlen : ct.length = m * n := by
    rw [hctdef, encryptPadded_length, hm]
  have hctmod : ct.length % n = 0 := by
    rw [hctlen]
    exact Nat.mul_mod_left m n
  have hctdiv : ct.length / n = m := by
    rw [hctlen]
    exact Nat.mul_div_cancel m hn
  rw [hct, encrypt, padPT_of_mod_zero n hn ct hctmod]
  have hctblocks : ∀ b, b < m → blockVec n ct b = K.mulVec (blockVec n p b) := by
    intro b hb
    rw [hctdef]
    exact blockVec_encryptPadded K p b (by rw [← hm]; exact hb)
  have hmain : encryptPadded n D ct =
      ((List.range m).map
        (fun b => List.ofFn (fun j : Fin n => p.getD (b * n + j.val) 'A'))).flatten := by
    rw [encryptPadded, hctdiv]
    congr 1
    apply List.map_congr_left
    intro b hbmem
    have hb : b < m := List.mem_range.mp hbmem
    congr 1
    funext j
    rw [hctblocks b hb, Matrix.mulVec_mulVec, hDK, Matrix.one_mulVec]
    show z97_to_char (char_to_z97 (p.getD (b * n + j.val) 'A'))
        = p.getD (b * n + j.val) 'A'
    apply table_roundtrip
    have hidx : b * n + j.val < p.length := by
      rw [hplen]
      calc b * n + j.val < b * n + n := by
            have := j.isLt
            omega
        _ = (b + 1) * n := by ring
        _ ≤ m * n := Nat.mul_le_mul_right n hb
    rw [List.getD_eq_getElem _ _ hidx]
    exact hpmem _ (List.getElem_mem _)
  rw [hmain, flatten_blocks_ext n m hn p 'A' hplen]
  exact hpeq

/-- The round trip: decrypting an encryption with an invertible key returns
the plaintext padded with trailing spaces to a multiple of the key size. -/
theorem decrypt_encrypt {n : ℕ} (hn : 0 < n) (K : Mat n) (hK : K.det ≠ 0)
    (pt : List Char) (hpt : ∀ c ∈ pt, c ∈ ch_table) :
    decrypt n K (encrypt n K pt) =
      .ok (pt ++ List.replicate ((n - pt.length % n) % n) ' ') := by
  obtain ⟨D, hD⟩ := (inverse_of_spec n K).2.2 hK
  obtain ⟨hDK, hKD, _⟩ := (inverse_of_spec n K).2.1 D hD
  rw [decrypt, hD]
  show Except.ok (encrypt n D (encrypt n K pt)) = _
  rw [encrypt_encrypt hn K D hDK pt hpt]

/-! ### Claim theorems -/

/-- The 2×2 key of the test suite: entries `0, -3, 5, 6` reduced modulo 97. -/
def hillKey : Mat 2 := !![0, -3; 5, 6]

/-- A 1×1 key used to exercise the Gauss-Jordan branch on a concrete input. -/
def oneKey : Mat 1 := Matrix.of fun _ _ => 3

/-- C1: for every invertible key `K` of positive dimension and every
plaintext made of table characters, `decrypt(K, encrypt(K, P))` is `P`
padded with exactly `(n - len(P) % n) % n` trailing spaces. -/
theorem claim_C1 (n : ℕ) (hn : 0 < n) (K : Mat n) (hK : K.det ≠ 0)
    (pt : List Char) (hpt : ∀ c ∈ pt, c ∈ ch_table) :
    decrypt n K (encrypt n K pt) =
      .ok (pt ++ List.replicate ((n - pt.length % n) % n) ' ') :=
  decrypt_encrypt hn K hK pt hpt

/-- Witness for C1 at the 2×2 test key and a plaintext of odd length
(one space of padding). -/
theorem claim_C1_witness :
    decrypt 2 hillKey (encrypt 2 hillKey ("Hi!".toList)) =
      .ok ("Hi! ".toList) := by
  have h := claim_C1 2 (by norm_num) hillKey
    (by rw [Matrix.det_fin_two]; decide) ("Hi!".toList) (by decide)
  rw [h]
  exact congrArg Except.ok (by decide)

/-- C2: for every invertible square matrix `K` over Z/97 (any dimension,
hence both the 2×2 closed-form branch and the Gauss-Jordan branch),
`inverse_of` succeeds and returns a two-sided inverse. -/
theorem claim_C2 (n : ℕ) (K : Mat n) (hK : K.det ≠ 0) :
    ∃ D, inverse_of n K = .ok D ∧ K * D = 1 ∧ D * K = 1 := by
  obtain ⟨D, hD⟩ := (inverse_of_spec n K).2.2 hK
  obtain ⟨h1, h2, _⟩ := (inverse_of_spec n K).2.1 D hD
  exact ⟨D, hD, h2, h1⟩

/-- Witness for C2 at a 3×3 matrix (the Gauss-Jordan branch). -/
theorem claim_C2_witness :
    ∃ D, inverse_of 3 (1 : Mat 3) = .ok D ∧ (1 : Mat 3) * D = 1 ∧ D * 1 = 1 :=
  claim_C2 3 1 (by rw [Matrix.det_one]; exact one_ne_zero)

/-- C3: for every square matrix of positive dimension, inversion fails
exactly on the singular matrices, and the `NotInvertible` message is the
only error ever produced. -/
theorem claim_C3 (n : ℕ) (hn : 0 < n) (K : Mat n) :
    ((∃ e, inverse_of n K = .error e) ↔ K.det = 0) ∧
    (∀ e, inverse_of n K = .error e → e = notInvMsg) := by
  constructor
  · constructor
    · rintro ⟨e, he⟩
      exact ((inverse_of_spec n K).1 e he).2
    · intro hdet
      cases hcase : inverse_of n K with
      | error e => exact ⟨e, rfl⟩
      | ok D =>
        exact absurd hdet ((inverse_of_spec n K).2.1 D hcase).2.2
  · intro e he
    exact ((inverse_of_spec n K).1 e he).1

/-- Witness for C3 at the singular zero 2×2 matrix. -/
theorem claim_C3_witness :
    ((∃ e, inverse_of 2 (0 : Mat 2) = .error e) ↔ (0 : Mat 2).det = 0) ∧
    (∀ e, inverse_of 2 (0 : Mat 2) = .error e → e = notInvMsg) :=
  claim_C3 2 (by norm_num) 0

/-- C4: the 2×2 branch fails exactly when `K00*K11 = K01*K10` (mod 97), and
otherwise returns exactly `[[K11/det, -K01/det], [-K10/det, K00/det]]` with
`det = K00*K11 - K01*K10`. -/
theorem claim_C4 (K : Mat 2) :
    (inverse_of 2 K = .error notInvMsg ↔ K 0 0 * K 1 1 = K 0 1 * K 1 0) ∧
    (K 0 0 * K 1 1 ≠ K 0 1 * K 1 0 →
      inverse_of 2 K = .ok (Matrix.of fun r c =>
        if r = 0 then
          (if c = 0 then K 1 1 / det2 K else -K 0 1 / det2 K)
        else
          (if c = 0 then -K 1 0 / det2 K else K 0 0 / det2 K))) := by
  rw [inverse_of_two]
  constructor
  · by_cases hguard : K 0 0 * K 1 1 = K 0 1 * K 1 0
    · rw [if_pos hguard]
      simp [hguard]
    · rw [if_neg hguard]
      simp [hguard]
  · intro hguard
    rw [if_neg hguard]
    rfl

/-- Witness for C4 at an invertible 2×2 matrix. -/
theorem claim_C4_witness :
    inverse_of 2 !![1, 2; 3, 4] = .ok (Matrix.of fun r c =>
      if r = 0 then
        (if c = 0 then !![(1:z97), 2; 3, 4] 1 1 / det2 !![1, 2; 3, 4]
         else -!![(1:z97), 2; 3, 4] 0 1 / det2 !![1, 2; 3, 4])
      else
        (if c = 0 then -!![(1:z97), 2; 3, 4] 1 0 / det2 !![1, 2; 3, 4]
         else !![(1:z97), 2; 3, 4] 0 0 / det2 !![1, 2; 3, 4])) :=
  (claim_C4 !![1, 2; 3, 4]).2 (by decide)

set_option maxRecDepth 20000 in
/-- C5: encrypting `"Hill Cipher!"` with the key `[[0, -3], [5, 6]]`
(entries reduced mod 97) yields exactly the 12 bytes of the reference
ciphertext. -/
theorem claim_C5 :
    encrypt 2 hillKey ("Hill Cipher!".toList) = "`t.T?f^cH2\\d".toList := by
  decide

/-- C6 as amended: mapping a character absent from the table does not fail;
`char_to_z97` returns the field element 0 (the distance 97, reduced mod 97),
indistinguishable from the mapping of `'A'`. -/
theorem claim_C6 : ∀ c : Char, c ∉ ch_table → char_to_z97 c = 0 := by
  intro c hc
  rw [char_to_z97, List.indexOf_eq_length.mpr hc, ch_table_length]
  exact ZMod.natCast_self 97

/-- Witness for the amended C6 at the carriage-return character. -/
theorem claim_C6_witness : char_to_z97 (Char.ofNat 13) = 0 :=
  claim_C6 (Char.ofNat 13) (by decide)

set_option maxRecDepth 4000 in
/-- Counterexample to C6 as stated: mapping the carriage return (absent from
the table) does not fail; it returns the ordinary field element 0, the very
value assigned to `'A'`, so unknown characters are silently encrypted
as `'A'`. -/
theorem claim_C6_counterexample :
    (Char.ofNat 13) ∉ ch_table ∧
      char_to_z97 (Char.ofNat 13) = char_to_z97 'A' := by
  constructor
  · decide
  · decide

/-- C7: the character mapping is a bijection between the 97 table characters
and the field: both round trips hold, and `z97_to_char` is total on the
field. -/
theorem claim_C7 :
    (∀ c ∈ ch_table, z97_to_char (char_to_z97 c) = c) ∧
    (∀ f : z97, char_to_z97 (z97_to_char f) = f) :=
  ⟨table_roundtrip, char_roundtrip⟩

/-- Witness for C7 at `'A'` and at the field element 5. -/
theorem claim_C7_witness :
    z97_to_char (char_to_z97 'A') = 'A' ∧
      char_to_z97 (z97_to_char 5) = 5 :=
  ⟨claim_C7.1 'A' (by decide), claim_C7.2 5⟩

/-- C8: `decrypt(K, ct)` is `encrypt(inverse_of(K), ct)`: on a successful
inversion it encrypts with the inverse, and it propagates exactly the
failure of `inverse_of`. -/
theorem claim_C8 (n : ℕ) (K : Mat n) (ct : List Char) :
    (∀ D, inverse_of n K = .ok D → decrypt n K ct = .ok (encrypt n D ct)) ∧
    (∀ e, inverse_of n K = .error e → decrypt n K ct = .error e) := by
  constructor
  · intro D hD
    rw [decrypt, hD]
  · intro e he
    rw [decrypt, he]

/-- Witness for C8: decryption with the singular zero key propagates the
`NotInvertible` failure. -/
theorem claim_C8_witness : decrypt 2 (0 : Mat 2) [] = .error notInvMsg :=
  (claim_C8 2 0 []).2 notInvMsg rfl

/-- C9: the key is passed to `decrypt` by value, so the caller's matrix is
unchanged by the call, even though the inversion really does mutate its
local scratch copy (on success the scratch key ends up as the identity). -/
theorem claim_C9 (n : ℕ) (K : Mat n) (ct : List Char) :
    (decryptCall n K ct).2 = K ∧
    (∀ s', gaussRun K = .ok s' → s'.key = idMat n) := by
  refine ⟨rfl, ?_⟩
  intro s' hs'
  rw [idMat_eq_one]
  exact (gaussRun_ok K s' hs').1

/-- Witness for C9 at a 1×1 key: the caller's key is returned unchanged and
the final scratch key of the (successful) Gauss-Jordan run is the
identity. -/
theorem claim_C9_witness :
    (decryptCall 1 oneKey []).2 = oneKey ∧
      ∃ s', gaussRun oneKey = .ok s' ∧ s'.key = idMat 1 := by
  have h := claim_C9 1 oneKey []
  refine ⟨h.1, ?_⟩
  cases hg : gaussRun oneKey with
  | error e =>
    have hdet := (gaussRun_error oneKey e hg).2
    rw [Matrix.det_fin_one] at hdet
    exact absurd hdet (by decide)
  | ok s' =>
    exact ⟨s', rfl, h.2 s' hg⟩

/-- C10: the descending unsigned loops of the back-substitution phase exit
via their `break` at index 0: the outer loop visits exactly
`n-1, …, 0` and the inner row loop visits exactly `i-1, …, 0`, so
`inverse_of` always terminates with either the error or an inverse. -/
theorem claim_C10 (n : ℕ) (hn : 0 < n) (s : GJState n) (K : Mat n) :
    (downFromE (natStepE (backPivot (n := n))) (n - 1) s =
      foldE (natStepE backPivot) s ((List.range n).reverse)) ∧
    (∀ i : Fin n, 0 < i.val →
      downFrom (natStep (backRowStep i)) (i.val - 1) s =
        ((List.range i.val).reverse).foldl (natStep (backRowStep i)) s) ∧
    ((∃ e, inverse_of n K = .error e) ∨ ∃ D, inverse_of n K = .ok D) := by
  refine ⟨backPhase_eq_fold s, ?_, ?_⟩
  · intro i hi
    rw [downFrom_eq_foldl, show i.val - 1 + 1 = i.val from by omega]
  · cases hcase : inverse_of n K with
    | error e => exact Or.inl ⟨e, rfl⟩
    | ok D => exact Or.inr ⟨D, rfl⟩

/-- Witness for C10 at dimension 2 with a concrete state, pivot row 1 and
the zero key. -/
theorem claim_C10_witness :
    (downFromE (natStepE (backPivot (n := 2))) (2 - 1) (GJState.mk 1 1) =
      foldE (natStepE backPivot) (GJState.mk 1 1) ((List.range 2).reverse)) ∧
      (downFrom (natStep (backRowStep (1 : Fin 2))) ((1 : Fin 2).val - 1)
          (GJState.mk 1 1) =
        ((List.range (1 : Fin 2).val).reverse).foldl
          (natStep (backRowStep (1 : Fin 2))) (GJState.mk 1 1)) ∧
      ((∃ e, inverse_of 2 (0 : Mat 2) = .error e) ∨
        ∃ D, inverse_of 2 (0 : Mat 2) = .ok D) := by
  have h := claim_C10 2 (by norm_num) (GJState.mk 1 1) (0 : Mat 2)
  exact ⟨h.1, h.2.1 1 (by norm_num), h.2.2⟩

end HillCipher
